import Mathlib

/-!
Verification of the helm chart-repository index engine.

This file shallowly embeds the core of `pkg/repo/index.go` (the catalog data
model with its add / get / has / merge / sort operations and the legacy-format
loader) together with the repository-provider functions `findRepoByURL` and
`createRepo` from the provider source file, and proves or refutes the frozen
claims about them.

Conventions of the embedding:
* Go strings are Lean `String`s; where Go code walks bytes we walk the
  underlying `List Char` (for the ASCII data handled here the byte order and
  the character order coincide).
* Go maps (`map[string]ChartVersions`, `map[string]IChartRepo`) are modelled
  as association lists with `lookupKey` / `setKey`; Go's nondeterministic map
  iteration order is fixed to the list order, and no verified claim depends
  on the iteration order.
* `sort.Sort(sort.Reverse(versions))` is an unstable comparison sort; it is
  modelled by an insertion sort driven by the same comparator.  For any
  comparator that is a strict weak order the two produce lists that agree on
  every property proved here; where the comparator misbehaves, Go's sort
  contract leaves the result unspecified.
* The Masterminds/semver v1 library used by `ChartVersions.Less` is embedded
  below (`semverParse`, `Semver.compareV`), following `NewVersion`'s anchored
  regular expression and the `Compare` / `comparePrerelease` /
  `comparePrePart` functions of that library, including its use of
  `strconv.ParseInt`.
* Fallible Go functions returning `(T, error)` become `Except`.
-/

/-! ## Character and Go string primitives -/

/-- Character class `[0-9]` of the semver regular expression. -/
def isDigitCh (c : Char) : Bool := '0' ≤ c && c ≤ '9'

/-- Character class `[0-9A-Za-z-]` of the semver prerelease/metadata parts. -/
def isPartCh (c : Char) : Bool :=
  isDigitCh c || ('A' ≤ c && c ≤ 'Z') || ('a' ≤ c && c ≤ 'z') || c = '-'

/-- Go's `s < o` on strings: lexicographic byte comparison (character
comparison coincides for valid UTF-8). -/
def goStringLt : List Char → List Char → Bool
  | [], [] => false
  | [], _ :: _ => true
  | _ :: _, [] => false
  | a :: as, b :: bs => if a < b then true else if b < a then false else goStringLt as bs

/-- Go's `strings.HasPrefix(s, pre)`: `strHasPre s pre` is true when `s`
starts with `pre`. -/
def strHasPre : List Char → List Char → Bool
  | _, [] => true
  | [], _ :: _ => false
  | c :: cs, d :: ds => c = d && strHasPre cs ds

/-- Go's `strings.Split(s, sep)` for a one-character separator: the list of
(possibly empty) chunks between occurrences of `sep`; always nonempty. -/
def splitOnChar (sep : Char) : List Char → List (List Char)
  | [] => [[]]
  | c :: rest =>
    if c = sep then [] :: splitOnChar sep rest
    else
      match splitOnChar sep rest with
      | [] => [[c]]
      | p :: ps => (c :: p) :: ps

/-- Value of a digit string (most significant first). -/
def digitsVal (ds : List Char) : Nat :=
  ds.foldl (fun a c => a * 10 + (c.toNat - '0'.toNat)) 0

/-- Digits-only parse: `some` value when `s` is a nonempty run of decimal
digits, `none` otherwise. -/
def digitsValOpt (s : List Char) : Option Nat :=
  if s.isEmpty then none
  else if s.all isDigitCh then some (digitsVal s) else none

/-- Go's `strconv.ParseInt(s, 10, 64)`: optional sign, nonempty digits,
64-bit range check; `none` stands for a non-nil error. -/
def parseIntGo (s : List Char) : Option Int :=
  match s with
  | [] => none
  | '+' :: rest =>
    match digitsValOpt rest with
    | none => none
    | some n => if n ≤ 9223372036854775807 then some (n : Int) else none
  | '-' :: rest =>
    match digitsValOpt rest with
    | none => none
    | some n => if n ≤ 9223372036854775808 then some (-(n : Int)) else none
  | _ =>
    match digitsValOpt s with
    | none => none
    | some n => if n ≤ 9223372036854775807 then some (n : Int) else none

/-! ## Masterminds/semver v1: parsing -/

/-- A parsed semantic version as stored by the semver library: numeric
segments plus the raw prerelease and build-metadata strings. -/
structure Semver where
  major : Nat
  minor : Nat
  patch : Nat
  pre : List Char
  metadata : List Char
deriving DecidableEq

/-- `strconv.ParseInt(seg, 10, 32)` on a regex-matched digit group: fails on
an empty group or a value above 2^31-1 (making the whole version malformed,
as `NewVersion` propagates the error). -/
def parseSeg32 (ds : List Char) : Option Nat :=
  match digitsValOpt ds with
  | none => none
  | some n => if n ≤ 2147483647 then some n else none

/-- Matcher for `part(.part)*` with `part = [0-9A-Za-z-]+`: returns the
matched characters (dots included) and the unconsumed rest.  The Boolean
argument records whether the current part already has a character; failure
means the anchored regular expression cannot match at all. -/
def preScan : List Char → Bool → Option (List Char × List Char)
  | [], seen => if seen then some ([], []) else none
  | c :: cs, seen =>
    if isPartCh c then
      match preScan cs true with
      | none => none
      | some (m, r) => some (c :: m, r)
    else if c = '.' then
      if seen then
        match preScan cs false with
        | none => none
        | some (m, r) => some ('.' :: m, r)
      else none
    else if seen then some ([], c :: cs) else none

/-- Optional `(\.[0-9]+)?` segment group: absent (value 0) when the input does
not start with a dot; a dot not followed by digits (or an over-range value)
makes the whole version malformed. -/
def optDotSeg (s : List Char) : Option (Nat × List Char) :=
  match s with
  | '.' :: t =>
    match parseSeg32 (t.takeWhile isDigitCh) with
    | none => none
    | some m => some (m, t.dropWhile isDigitCh)
  | _ => some (0, s)

/-- Optional `(-parts)?` or `(\+parts)?` group introduced by `mark`. -/
def optSuffixPart (mark : Char) (s : List Char) : Option (List Char × List Char) :=
  match s with
  | [] => some ([], [])
  | c :: t => if c = mark then preScan t false else some ([], c :: t)

/-- Embeds Masterminds/semver v1 `NewVersion`: match the anchored regular
expression `v?([0-9]+)(\.[0-9]+)?(\.[0-9]+)?(-parts)?(\+parts)?` and parse
the numeric groups with 32-bit `ParseInt`; `none` is a non-nil error. -/
def semverParseChars (input : List Char) : Option Semver :=
  let s0 := match input with
    | 'v' :: rest => rest
    | _ => input
  match parseSeg32 (s0.takeWhile isDigitCh) with
  | none => none
  | some major =>
    match optDotSeg (s0.dropWhile isDigitCh) with
    | none => none
    | some (minor, s2) =>
      match optDotSeg s2 with
      | none => none
      | some (patch, s3) =>
        match optSuffixPart '-' s3 with
        | none => none
        | some (pre, s4) =>
          match optSuffixPart '+' s4 with
          | none => none
          | some (md, s5) =>
            if s5.isEmpty then
              some { major := major, minor := minor, patch := patch, pre := pre, metadata := md }
            else none

/-- `NewVersion` on a Go string. -/
def semverParse (s : String) : Option Semver :=
  semverParseChars s.data

/-! ## Masterminds/semver v1: comparison -/

/-- `compareSegment`: three-way comparison of numeric segments. -/
def compareSegment (a b : Nat) : Int :=
  if a < b then -1 else if b < a then 1 else 0

/-- `comparePrePart`: three-way comparison of one dot-separated prerelease
identifier pair.  Equal strings compare equal; an empty (padded) identifier
sorts below a nonempty one; identifiers accepted by `ParseInt` compare below
alphanumeric ones and among themselves by `sInt > oInt`; alphanumeric
identifiers compare by Go string order. -/
def comparePrePart (s o : List Char) : Int :=
  if s = o then 0
  else if s = [] then (if o = [] then 1 else -1)
  else if o = [] then (if s = [] then -1 else 1)
  else
    match parseIntGo s, parseIntGo o with
    | some _, none => -1
    | none, some _ => 1
    | some si, some oi => if oi < si then 1 else -1
    | none, none => if goStringLt o s then 1 else -1

/-- Tail of the `comparePrerelease` loop once the right-hand part list is
exhausted: remaining left parts compare against the empty placeholder. -/
def comparePadRight : List (List Char) → Int
  | [] => 0
  | s :: ss =>
    let d := comparePrePart s []
    if d = 0 then comparePadRight ss else d

/-- Tail of the `comparePrerelease` loop once the left-hand part list is
exhausted. -/
def comparePadLeft : List (List Char) → Int
  | [] => 0
  | o :: os =>
    let d := comparePrePart [] o
    if d = 0 then comparePadLeft os else d

/-- `comparePrerelease`: first nonzero `comparePrePart` over the identifier
lists, the shorter list padded with empty placeholders. -/
def comparePreParts : List (List Char) → List (List Char) → Int
  | [], os => comparePadLeft os
  | ss, [] => comparePadRight ss
  | s :: ss, o :: os =>
    let d := comparePrePart s o
    if d = 0 then comparePreParts ss os else d

/-- `Version.Compare`: major, minor, patch, then prerelease (absence of a
prerelease sorts above presence); build metadata is ignored. -/
def Semver.compareV (v o : Semver) : Int :=
  let d1 := compareSegment v.major o.major
  if d1 ≠ 0 then d1
  else
    let d2 := compareSegment v.minor o.minor
    if d2 ≠ 0 then d2
    else
      let d3 := compareSegment v.patch o.patch
      if d3 ≠ 0 then d3
      else
        if v.pre = [] && o.pre = [] then 0
        else if v.pre = [] then 1
        else if o.pre = [] then -1
        else comparePreParts (splitOnChar '.' v.pre) (splitOnChar '.' o.pre)

/-- `Version.LessThan`: `v.Compare(o) < 0`. -/
def Semver.lessThan (v o : Semver) : Bool :=
  v.compareV o < 0

/-- The comparator body of `ChartVersions.Less` (index.go lines 66-77) on the
two version strings: a version that fails to parse on the left compares as
less; one that fails on the right compares as not-less; otherwise semver
`LessThan`. -/
def versionLess (a b : String) : Bool :=
  match semverParse a with
  | none => true
  | some i =>
    match semverParse b with
    | none => false
    | some j => i.lessThan j

/-! ## Catalog data model (index.go) -/

/-- `chart.Metadata`, restricted to the fields this package reads. -/
structure ChartMetadata where
  name : String
  version : String
deriving DecidableEq

/-- `ChartVersion`: one record of the catalog (metadata name/version plus the
fields declared in index.go). -/
structure ChartVersion where
  name : String
  version : String
  urls : List String
  created : Nat
  removed : Bool
  digest : String
deriving DecidableEq

/-- Lookup in an association-list model of a Go map. -/
def lookupKey {ν : Type} : List (String × ν) → String → Option ν
  | [], _ => none
  | (k, v) :: rest, key => if k = key then some v else lookupKey rest key

/-- Insert-or-replace in an association-list model of a Go map. -/
def setKey {ν : Type} : List (String × ν) → String → ν → List (String × ν)
  | [], key, v => [(key, v)]
  | (k, w) :: rest, key, v =>
    if k = key then (key, v) :: rest else (k, w) :: setKey rest key v

/-- `IndexFile`: the chart repository index. -/
structure IndexFile where
  apiVersion : String
  generated : Nat
  entries : List (String × List ChartVersion)
  publicKeys : List String
deriving DecidableEq

/-- `APIVersionV1`. -/
def APIVersionV1 : String := "v1"

/-- `NewIndexFile` (the creation timestamp is passed explicitly). -/
def newIndexFile (now : Nat) : IndexFile :=
  { apiVersion := APIVersionV1, generated := now, entries := [], publicKeys := [] }

/-- The error kinds of catalog lookup: `ErrNoChartName`, `ErrNoChartVersion`,
and the formatted no-match error of `Get`. -/
inductive IndexError
  | noChartName
  | noChartVersion
  | noVersionMatch (name version : String)
deriving DecidableEq

/-- `IndexFile.Get` (index.go lines 142-160). -/
def IndexFile.get (i : IndexFile) (name version : String) : Except IndexError ChartVersion :=
  match lookupKey i.entries name with
  | none => .error .noChartName
  | some vs =>
    match vs with
    | [] => .error .noChartVersion
    | v0 :: _ =>
      if version = "" then .ok v0
      else
        match vs.find? (fun ver => ver.version = version) with
        | some v => .ok v
        | none => .error (.noVersionMatch name version)

/-- `IndexFile.Has`: true iff `Get` succeeds. -/
def IndexFile.has (i : IndexFile) (name version : String) : Bool :=
  match i.get name version with
  | .ok _ => true
  | .error _ => false

/-- Base filename: the final '/'-separated component (`filepath.Split`). -/
def baseName (s : String) : String :=
  ⟨(s.data.reverse.takeWhile (fun c => c ≠ '/')).reverse⟩

/-- Modelled from the spec: `urlJoin` (index.go lines 328-338) parses the
base URL with `net/url` (not under src) and joins path components; modelled
as a plain path join.  Reached only when `baseURL` is nonempty, which no
verified claim exercises. -/
def urlJoinModel (baseURL p : String) : String :=
  baseURL ++ "/" ++ p

/-- `IndexFile.Add` (index.go lines 98-119); `now` stands for `time.Now()`. -/
def IndexFile.add (i : IndexFile) (md : ChartMetadata) (filename baseURL digest : String)
    (now : Nat) : IndexFile :=
  let u := if baseURL = "" then filename else urlJoinModel baseURL (baseName filename)
  let cr : ChartVersion :=
    { name := md.name, version := md.version, urls := [u], created := now,
      removed := false, digest := digest }
  match lookupKey i.entries md.name with
  | none => { i with entries := setKey i.entries md.name [cr] }
  | some ee => { i with entries := setKey i.entries md.name (ee ++ [cr]) }

/-- One insertion step of the model of `sort.Sort(sort.Reverse(versions))`:
place `x` before the first element that compares below it. -/
def insertDesc (x : ChartVersion) : List ChartVersion → List ChartVersion
  | [] => [x]
  | y :: ys => if versionLess y.version x.version then x :: y :: ys else y :: insertDesc x ys

/-- Descending sort of one version list by the `ChartVersions.Less`
comparator (see the module comment on the sort model). -/
def sortVersionsDesc : List ChartVersion → List ChartVersion
  | [] => []
  | x :: xs => insertDesc x (sortVersionsDesc xs)

/-- `IndexFile.SortEntries` (index.go lines 133-137). -/
def IndexFile.sortEntries (i : IndexFile) : IndexFile :=
  { i with entries := i.entries.map (fun p => (p.1, sortVersionsDesc p.2)) }

/-- All records of the index, in map-then-list order. -/
def IndexFile.records (i : IndexFile) : List ChartVersion :=
  (i.entries.map Prod.snd).flatten

/-- The body of `Merge`'s inner loop (index.go lines 181-186): append `cv`
under its own name unless `Has(cv.Name, cv.Version)`. -/
def mergeOne (acc : IndexFile) (cv : ChartVersion) : IndexFile :=
  if acc.has cv.name cv.version then acc
  else
    { acc with
      entries := setKey acc.entries cv.name
        (((lookupKey acc.entries cv.name).getD []) ++ [cv]) }

/-- `IndexFile.Merge` (index.go lines 179-188). -/
def IndexFile.merge (i f : IndexFile) : IndexFile :=
  f.records.foldl mergeOne i

/-- The version list stored under `n` (`i.Entries[n]`, nil slice as `[]`). -/
def listAt (i : IndexFile) (n : String) : List ChartVersion :=
  (lookupKey i.entries n).getD []

/-- Whether the list stored under `n` holds a record with version `v` (the
condition `Get(n, v)` tests for a nonempty `v`). -/
def hasVerAt (i : IndexFile) (n v : String) : Bool :=
  (listAt i n).any (fun r => r.version = v)

/-- Whether some record of the index carries exactly the (name, version)
pair: the spec's notion of a pair being present in a catalog. -/
def hasPairRec (i : IndexFile) (n v : String) : Bool :=
  i.records.any (fun r => r.name = n && r.version = v)

/-! ## Legacy format and deserialization (index.go) -/

/-- `unversionedEntry`. -/
structure UnversionedEntry where
  checksum : String
  url : String
  chartfile : Option ChartMetadata
deriving DecidableEq

/-- Go's `strings.TrimSuffix(s, ".tgz")`. -/
def goTrimSuffixTgz (s : String) : String :=
  let sfx := ['.', 't', 'g', 'z']
  if sfx.isSuffixOf s.data then ⟨s.data.take (s.data.length - 4)⟩ else s

/-- The name/version derivation of `loadUnversionedIndex` for entries with a
missing or nameless descriptor (index.go lines 301-306): split the key on
`-`, the first piece is the name, the second piece (when the split has more
than one piece) with `.tgz` stripped is the version. -/
def legacyDerive (n : String) : ChartMetadata :=
  let parts := (splitOnChar '-' n.data).map (fun l => (⟨l⟩ : String))
  let ver := if parts.length > 1 then goTrimSuffixTgz (parts.getD 1 "") else ""
  { name := parts.headD "", version := ver }

/-- One iteration of the `loadUnversionedIndex` build loop (index.go lines
299-309). -/
def legacyAddEntry (ni : IndexFile) (kv : String × UnversionedEntry) (now : Nat) : IndexFile :=
  let md :=
    match kv.2.chartfile with
    | none => legacyDerive kv.1
    | some cf => if cf.name = "" then legacyDerive kv.1 else cf
  ni.add md kv.2.url "" kv.2.checksum now

/-- The catalog built from a nonempty parsed legacy mapping. -/
def buildLegacy (m : List (String × UnversionedEntry)) (now : Nat) : IndexFile :=
  m.foldl (fun ni kv => legacyAddEntry ni kv now) (newIndexFile now)

/-- Error kinds of deserialization: an unmarshal failure or
`ErrNoAPIVersion`. -/
inductive LoadErr
  | parseFailure
  | noAPIVersion
deriving DecidableEq

/-- A document as seen after the two structural parses that `LoadIndex` may
attempt: `asIndex` is `yaml.Unmarshal` into `IndexFile`, `asLegacy` is the
YAML-to-JSON conversion plus `json.Unmarshal` into the flat legacy map.
Unmarshalling itself is external; its two possible outcomes per document are
taken as the embedding's input. -/
structure RawDoc where
  asIndex : Except Unit IndexFile
  asLegacy : Except Unit (List (String × UnversionedEntry))

/-- `loadUnversionedIndex` (index.go lines 280-311) over a parsed document. -/
def loadUnversionedIndexDoc (d : RawDoc) (now : Nat) : Except LoadErr IndexFile :=
  match d.asLegacy with
  | .error _ => .error .parseFailure
  | .ok m =>
    if m.length = 0 then .error .noAPIVersion
    else .ok (buildLegacy m now)

/-- `LoadIndex` (index.go lines 254-266) over a parsed document. -/
def loadIndex (d : RawDoc) (now : Nat) : Except LoadErr IndexFile :=
  match d.asIndex with
  | .error _ => .error .parseFailure
  | .ok i => if i.apiVersion = "" then loadUnversionedIndexDoc d now else .ok i

/-! ## Repository provider -/

/-- The name and base URL of a resolved chart repository handle
(`IChartRepo`'s `GetName` / `GetURL`). -/
structure RepoHandle where
  name : String
  url : String
deriving DecidableEq

/-- The body of `findRepoByURL`'s loop: keep the candidate whose base URL is
a strictly longer matching prefix of `url` than the current best. -/
def findStep (url : String) (found : Option RepoHandle) (r : RepoHandle) : Option RepoHandle :=
  if strHasPre url.data r.url.data then
    match found with
    | none => some r
    | some f => if f.url.length < r.url.length then some r else found
  else found

/-- `findRepoByURL` (provider source lines 144-156); the cached handles are
given in iteration order. -/
def findRepoByURL (repos : List RepoHandle) (url : String) : Option RepoHandle :=
  repos.foldl (findStep url) none

/-- The error kind of duplicate registration. -/
inductive RegistryErr
  | duplicateRepository
deriving DecidableEq

/-- `createRepo` (provider source lines 117-125): result plus the
registry map after the call. -/
def createRepo (repos : List (String × RepoHandle)) (cr : RepoHandle) :
    Except RegistryErr RepoHandle × List (String × RepoHandle) :=
  match lookupKey repos cr.name with
  | some _ => (.error .duplicateRepository, repos)
  | none => (.ok cr, setKey repos cr.name cr)

/-! ## Spec-side definitions (for refinement claims) -/

/-- Follows the spec's words (claim C4): the package name is the portion of
the key before the first `-`. -/
def specLegacyName (k : String) : String :=
  ⟨k.data.takeWhile (fun c => c ≠ '-')⟩

/-- Follows the spec's words (claim C4): the version is the ENTIRE portion of
the key after the first `-`, with a trailing `.tgz` stripped, or empty when
the key has no `-`. -/
def specLegacyVersionFull (k : String) : String :=
  match k.data.dropWhile (fun c => c ≠ '-') with
  | [] => ""
  | _ :: rest => goTrimSuffixTgz ⟨rest⟩

/-- The amended version rule: the portion of the key after the first `-` up
to (not including) the next `-`, with a trailing `.tgz` stripped. -/
def specLegacyVersionPiece (k : String) : String :=
  match k.data.dropWhile (fun c => c ≠ '-') with
  | [] => ""
  | _ :: rest => goTrimSuffixTgz ⟨rest.takeWhile (fun c => c ≠ '-')⟩

/-- Order relation certified for a sorted version list: a well-formed element
is not below anything after it, and everything after a malformed element is
malformed. -/
def sortedRel (a b : ChartVersion) : Prop :=
  (semverParse a.version = none → semverParse b.version = none) ∧
  (semverParse a.version ≠ none → versionLess a.version b.version = false)

/-- Transitivity of the comparator on the elements of one version list; this
holds unless the list carries prerelease identifiers that are numerically
equal but textually distinct (such as `01` versus `1`). -/
def vlTrans (vs : List ChartVersion) : Prop :=
  ∀ u ∈ vs, ∀ v ∈ vs, ∀ w ∈ vs,
    versionLess u.version v.version = true → versionLess v.version w.version = true →
      versionLess u.version w.version = true

/-- Every record of the catalog can be found back through `Has` under its own
name and version; catalogs built by `Add` have this shape. -/
def wellLocated (c : IndexFile) : Prop :=
  ∀ p ∈ c.entries, ∀ r ∈ p.2, c.has r.name r.version = true

instance vlTransDec (vs : List ChartVersion) : Decidable (vlTrans vs) := by
  unfold vlTrans
  exact inferInstance

instance wellLocatedDec (c : IndexFile) : Decidable (wellLocated c) := by
  unfold wellLocated
  exact inferInstance

/-! ## Concrete instances used by witnesses and counterexamples -/

/-- A record for chart `x` version `1.0.0` with digest `AAA`. -/
def rW1 : ChartVersion :=
  { name := "x", version := "1.0.0", urls := ["u1"], created := 0, removed := false,
    digest := "AAA" }

/-- A record for chart `x` version `2.0.0` with digest `BBB`. -/
def rW2 : ChartVersion :=
  { name := "x", version := "2.0.0", urls := ["u2"], created := 0, removed := false,
    digest := "BBB" }

/-- A record for chart `x` with a malformed version string. -/
def rBogus : ChartVersion :=
  { name := "x", version := "bogus", urls := ["u3"], created := 0, removed := false,
    digest := "CCC" }

/-- A record for chart `x` whose version field is the empty string. -/
def ceRecE : ChartVersion :=
  { name := "x", version := "", urls := ["ue"], created := 0, removed := false,
    digest := "EEE" }

/-- Records with the leading-zero prerelease identifiers `1` and `01`. -/
def rDash1 : ChartVersion :=
  { name := "x", version := "1.0.0-1", urls := ["d1"], created := 0, removed := false,
    digest := "D1" }

/-- See `rDash1`. -/
def rDash01 : ChartVersion :=
  { name := "x", version := "1.0.0-01", urls := ["d01"], created := 0, removed := false,
    digest := "D01" }

/-- A catalog holding `x ↦ [1.0.0, 2.0.0]` (unsorted: the smaller version
first) and a name mapped to the empty list. -/
def cW : IndexFile :=
  { apiVersion := "v1", generated := 0,
    entries := [("x", [rW1, rW2]), ("empty", [])], publicKeys := [] }

/-- A receiver catalog holding only `x ↦ [1.0.0]`. -/
def c1Recv : IndexFile :=
  { apiVersion := "v1", generated := 0, entries := [("x", [rW1])], publicKeys := [] }

/-- A catalog whose only record under `x` has an empty version string. -/
def ceOther : IndexFile :=
  { apiVersion := "v1", generated := 0, entries := [("x", [ceRecE])], publicKeys := [] }

/-- A catalog holding `x ↦ [1.0.0, 2.0.0]` under one key. -/
def c1Other : IndexFile :=
  { apiVersion := "v1", generated := 0, entries := [("x", [rW1, rW2])], publicKeys := [] }

/-- A catalog whose two well-formed versions compare strictly below each
other (`1.0.0-1` and `1.0.0-01`). -/
def c2ce : IndexFile :=
  { apiVersion := "v1", generated := 0, entries := [("x", [rDash1, rDash01])],
    publicKeys := [] }

/-- A catalog with one malformed version listed before a well-formed one. -/
def c2w : IndexFile :=
  { apiVersion := "v1", generated := 0, entries := [("x", [rBogus, rW1])],
    publicKeys := [] }

/-- A catalog storing a record named `x` under the unrelated map key `k`. -/
def c9ce : IndexFile :=
  { apiVersion := "v1", generated := 0, entries := [("k", [rW1])], publicKeys := [] }

/-- Cached handle for the longer base URL of the spec's example. -/
def hCharts : RepoHandle :=
  { name := "charts", url := "https://store.example.com/charts" }

/-- Cached handle for the shorter base URL of the spec's example. -/
def hRoot : RepoHandle :=
  { name := "root", url := "https://store.example.com" }

/-- A parsed document with a nonempty `apiVersion`. -/
def c6Doc : RawDoc := { asIndex := .ok cW, asLegacy := .ok [] }

/-- A parsed document with an empty `apiVersion` and an empty legacy map. -/
def c6DocLegacy : RawDoc :=
  { asIndex := .ok { apiVersion := "", generated := 0, entries := [], publicKeys := [] },
    asLegacy := .ok [] }

/-! ## Association-list map laws -/

theorem lookupKey_setKey_self {ν : Type} (e : List (String × ν)) (k : String) (v : ν) :
    lookupKey (setKey e k v) k = some v := by
  induction e with
  | nil => simp [setKey, lookupKey]
  | cons p rest ih =>
    rcases p with ⟨k0, w⟩
    by_cases h : k0 = k
    · simp [setKey, h, lookupKey]
    · simp [setKey, h, lookupKey, ih]

theorem lookupKey_setKey_other {ν : Type} (e : List (String × ν)) (k k' : String) (v : ν)
    (h : k' ≠ k) : lookupKey (setKey e k v) k' = lookupKey e k' := by
  induction e with
  | nil =>
    simp only [setKey, lookupKey]
    rw [if_neg (Ne.symm h)]
  | cons p rest ih =>
    rcases p with ⟨k0, w⟩
    by_cases h0 : k0 = k
    · subst h0
      simp only [setKey, if_pos rfl, lookupKey]
      rw [if_neg (Ne.symm h), if_neg (Ne.symm h)]
    · simp only [setKey, if_neg h0, lookupKey]
      by_cases h1 : k0 = k'
      · simp [h1]
      · simp [h1, ih]

/-! ## Claim C3: Get -/

/-- C3: `Get(name, version)` returns the element at index 0 of the name's
list when `version` is empty (without sorting first), fails with
`ErrNoChartName` when the name is absent, with `ErrNoChartVersion` when the
name maps to a zero-length list, and with the version-not-found error when a
non-empty `version` has no exact string match in the (nonempty) list. -/
theorem get_spec (i : IndexFile) (name version : String) :
    (lookupKey i.entries name = none → i.get name version = .error .noChartName) ∧
    (lookupKey i.entries name = some [] → i.get name version = .error .noChartVersion) ∧
    (∀ v0 rest, lookupKey i.entries name = some (v0 :: rest) → i.get name "" = .ok v0) ∧
    (∀ vs, version ≠ "" → lookupKey i.entries name = some vs → vs ≠ [] →
      (∀ r ∈ vs, r.version ≠ version) →
        i.get name version = .error (.noVersionMatch name version)) := by
  refine ⟨fun h => ?_, fun h => ?_, fun v0 rest h => ?_, fun vs hv h hne hall => ?_⟩
  · simp [IndexFile.get, h]
  · simp [IndexFile.get, h]
  · simp [IndexFile.get, h]
  · rcases vs with _ | ⟨v0, rest⟩
    · exact absurd rfl hne
    · have hfind : (v0 :: rest).find? (fun ver => ver.version = version) = none := by
        rw [List.find?_eq_none]
        intro x hx
        simpa using hall x hx
      simp [IndexFile.get, h, hv, hfind]

/-- Witness for C3 at concrete inputs; in particular `Get("x", "")` on an
unsorted list returns index 0 (the older version `1.0.0`) exactly. -/
theorem get_spec_witness :
    cW.get "absent" "1.0.0" = .error .noChartName ∧
    cW.get "empty" "1.0.0" = .error .noChartVersion ∧
    cW.get "x" "" = .ok rW1 ∧
    cW.get "x" "9.9.9" = .error (.noVersionMatch "x" "9.9.9") :=
  ⟨(get_spec cW "absent" "1.0.0").1 (by decide),
   (get_spec cW "empty" "1.0.0").2.1 (by decide),
   (get_spec cW "x" "1.0.0").2.2.1 rW1 [rW2] (by decide),
   (get_spec cW "x" "9.9.9").2.2.2 [rW1, rW2] (by decide) (by decide) (by decide)
     (by decide)⟩

/-! ## Claim C6: LoadIndex -/

/-- C6: `LoadIndex` accepts any structurally parsed document with a nonempty
`apiVersion` as-is; with an absent or empty `apiVersion` it delegates to the
legacy parse, and it fails with `ErrNoAPIVersion` exactly when the legacy
mapping parses successfully to zero entries. -/
theorem loadIndex_spec (d : RawDoc) (now : Nat) :
    (∀ i, d.asIndex = .ok i → i.apiVersion ≠ "" → loadIndex d now = .ok i) ∧
    (∀ i, d.asIndex = .ok i → i.apiVersion = "" →
      loadIndex d now = loadUnversionedIndexDoc d now) ∧
    (loadIndex d now = .error .noAPIVersion ↔
      ∃ i, d.asIndex = .ok i ∧ i.apiVersion = "" ∧ d.asLegacy = .ok []) := by
  refine ⟨fun i h hne => ?_, fun i h he => ?_, ?_⟩
  · simp [loadIndex, h, hne]
  · simp [loadIndex, h, he]
  · constructor
    · intro h
      unfold loadIndex at h
      rcases hd : d.asIndex with e | i
      · rw [hd] at h
        simp at h
      · rw [hd] at h
        dsimp only at h
        by_cases he : i.apiVersion = ""
        · rw [if_pos he] at h
          unfold loadUnversionedIndexDoc at h
          rcases hl : d.asLegacy with e | m
          · rw [hl] at h
            simp at h
          · rw [hl] at h
            dsimp only at h
            by_cases hm : m.length = 0
            · refine ⟨i, rfl, he, ?_⟩
              rw [List.length_eq_zero.mp hm]
            · rw [if_neg hm] at h
              simp at h
        · rw [if_neg he] at h
          simp at h
    · rintro ⟨i, hi, he, hl⟩
      simp [loadIndex, hi, he, loadUnversionedIndexDoc, hl]

/-- Witness for C6: a document with `apiVersion = "v1"` is returned as-is,
and a document with empty `apiVersion` and an empty legacy map fails with
`ErrNoAPIVersion`. -/
theorem loadIndex_spec_witness :
    loadIndex c6Doc 0 = .ok cW ∧ loadIndex c6DocLegacy 0 = .error .noAPIVersion :=
  ⟨(loadIndex_spec c6Doc 0).1 cW rfl (by decide),
   (loadIndex_spec c6DocLegacy 0).2.2.mpr
     ⟨{ apiVersion := "", generated := 0, entries := [], publicKeys := [] },
       rfl, rfl, rfl⟩⟩

/-! ## Claim C8: createRepo -/

/-- C8: registering a handle under a name already present in the registry
map fails with the duplicate-repository error and leaves the map unchanged
(the existing entry is not replaced); registering under an absent name
inserts the handle and returns it. -/
theorem createRepo_spec (repos : List (String × RepoHandle)) (cr : RepoHandle) :
    (∀ w, lookupKey repos cr.name = some w →
      createRepo repos cr = (.error .duplicateRepository, repos)) ∧
    (lookupKey repos cr.name = none →
      createRepo repos cr = (.ok cr, setKey repos cr.name cr) ∧
      lookupKey (createRepo repos cr).2 cr.name = some cr ∧
      ∀ n, n ≠ cr.name → lookupKey (createRepo repos cr).2 n = lookupKey repos n) := by
  constructor
  · intro w h
    simp [createRepo, h]
  · intro h
    refine ⟨by simp [createRepo, h], ?_, ?_⟩
    · simp [createRepo, h, lookupKey_setKey_self]
    · intro n hn
      simp [createRepo, h, lookupKey_setKey_other _ _ _ _ hn]

/-- Witness for C8: re-registering the cached handle `hCharts` fails and
keeps the map; registering the new name `root` inserts it. -/
theorem createRepo_spec_witness :
    createRepo [("charts", hCharts)] hCharts =
      (.error .duplicateRepository, [("charts", hCharts)]) ∧
    createRepo [("charts", hCharts)] hRoot =
      (.ok hRoot, [("charts", hCharts), ("root", hRoot)]) :=
  ⟨(createRepo_spec [("charts", hCharts)] hCharts).1 hCharts (by decide),
   ((createRepo_spec [("charts", hCharts)] hRoot).2 (by decide)).1⟩

/-! ## Claim C7: findRepoByURL -/

theorem findFold_spec (url : String) (rs : List RepoHandle) :
    ∀ acc : Option RepoHandle,
      (rs.foldl (findStep url) acc = none →
        acc = none ∧ ∀ r ∈ rs, strHasPre url.data r.url.data = false) ∧
      (∀ f, rs.foldl (findStep url) acc = some f →
        (acc = some f ∨ (f ∈ rs ∧ strHasPre url.data f.url.data = true)) ∧
        (∀ r ∈ rs, strHasPre url.data r.url.data = true → r.url.length ≤ f.url.length) ∧
        (∀ g, acc = some g → g.url.length ≤ f.url.length)) := by
  induction rs with
  | nil =>
    intro acc
    refine ⟨fun h => ⟨h, by simp⟩, fun f h => ⟨Or.inl h, by simp, fun g hg => ?_⟩⟩
    rw [hg] at h
    cases h
    exact le_refl _
  | cons r0 rest ih =>
    intro acc
    by_cases hm : strHasPre url.data r0.url.data = true
    · rcases acc with _ | g0
      · have hacc : findStep url none r0 = some r0 := by simp [findStep, hm]
        rw [List.foldl_cons, hacc]
        constructor
        · intro h
          rcases ((ih (some r0)).1 h).1 with hc
          cases hc
        · intro f h
          have H := (ih (some r0)).2 f h
          have hr0 : r0.url.length ≤ f.url.length := H.2.2 r0 rfl
          refine ⟨?_, ?_, ?_⟩
          · rcases H.1 with hc | hc
            · cases hc
              exact Or.inr ⟨List.mem_cons_self _ _, hm⟩
            · exact Or.inr ⟨List.mem_cons_of_mem _ hc.1, hc.2⟩
          · intro r hr hmr
            rcases List.mem_cons.mp hr with h1 | h1
            · rw [h1]
              exact hr0
            · exact H.2.1 r h1 hmr
          · intro g hg
            cases hg
      · by_cases hlt : g0.url.length < r0.url.length
        · have hacc : findStep url (some g0) r0 = some r0 := by simp [findStep, hm, hlt]
          rw [List.foldl_cons, hacc]
          constructor
          · intro h
            rcases ((ih (some r0)).1 h).1 with hc
            cases hc
          · intro f h
            have H := (ih (some r0)).2 f h
            have hr0 : r0.url.length ≤ f.url.length := H.2.2 r0 rfl
            refine ⟨?_, ?_, ?_⟩
            · rcases H.1 with hc | hc
              · cases hc
                exact Or.inr ⟨List.mem_cons_self _ _, hm⟩
              · exact Or.inr ⟨List.mem_cons_of_mem _ hc.1, hc.2⟩
            · intro r hr hmr
              rcases List.mem_cons.mp hr with h1 | h1
              · rw [h1]
                exact hr0
              · exact H.2.1 r h1 hmr
            · intro g hg
              cases hg
              exact le_trans (le_of_lt hlt) hr0
        · have hacc : findStep url (some g0) r0 = some g0 := by simp [findStep, hm, hlt]
          rw [List.foldl_cons, hacc]
          constructor
          · intro h
            rcases ((ih (some g0)).1 h).1 with hc
            cases hc
          · intro f h
            have H := (ih (some g0)).2 f h
            have hg0 : g0.url.length ≤ f.url.length := H.2.2 g0 rfl
            refine ⟨?_, ?_, ?_⟩
            · rcases H.1 with hc | hc
              · exact Or.inl hc
              · exact Or.inr ⟨List.mem_cons_of_mem _ hc.1, hc.2⟩
            · intro r hr hmr
              rcases List.mem_cons.mp hr with h1 | h1
              · rw [h1]
                exact le_trans (le_of_not_lt hlt) hg0
              · exact H.2.1 r h1 hmr
            · intro g hg
              cases hg
              exact hg0
    · have hacc : findStep url acc r0 = acc := by simp [findStep, hm]
      rw [List.foldl_cons, hacc]
      constructor
      · intro h
        have H := (ih acc).1 h
        refine ⟨H.1, fun r hr => ?_⟩
        rcases List.mem_cons.mp hr with h1 | h1
        · rw [h1]
          simpa using hm
        · exact H.2 r h1
      · intro f h
        have H := (ih acc).2 f h
        refine ⟨?_, ?_, H.2.2⟩
        · rcases H.1 with hc | hc
          · exact Or.inl hc
          · exact Or.inr ⟨List.mem_cons_of_mem _ hc.1, hc.2⟩
        · intro r hr hmr
          rcases List.mem_cons.mp hr with h1 | h1
          · rw [h1] at hmr
            exact absurd hmr hm
          · exact H.2.1 r h1 hmr

/-- C7: whenever `findRepoByURL` returns a handle, that handle is cached,
its base URL is a prefix of the given URL, and its base URL is at least as
long as that of every cached prefix-matching handle; and whenever some
cached handle matches, `findRepoByURL` does return one. -/
theorem findRepoByURL_longest (repos : List RepoHandle) (url : String) :
    (∀ r, findRepoByURL repos url = some r →
      r ∈ repos ∧ strHasPre url.data r.url.data = true ∧
        ∀ q ∈ repos, strHasPre url.data q.url.data = true →
          q.url.length ≤ r.url.length) ∧
    ((∃ q ∈ repos, strHasPre url.data q.url.data = true) →
      ∃ r, findRepoByURL repos url = some r) := by
  have H := findFold_spec url repos none
  constructor
  · intro r h
    have h2 := H.2 r h
    rcases h2.1 with hc | hc
    · cases hc
    · exact ⟨hc.1, hc.2, h2.2.1⟩
  · rintro ⟨q, hq, hmatch⟩
    rcases hres : findRepoByURL repos url with _ | r
    · have hall := (H.1 hres).2 q hq
      rw [hmatch] at hall
      cases hall
    · exact ⟨r, rfl⟩

/-- Witness for C7: against cached handles for the base URLs
`https://store.example.com` and `https://store.example.com/charts`,
resolving `https://store.example.com/charts/sub` returns the handle for the
longer base, and the theorem certifies it as a longest matching prefix. -/
theorem findRepoByURL_longest_witness :
    findRepoByURL [hRoot, hCharts] "https://store.example.com/charts/sub" = some hCharts ∧
    hCharts ∈ [hRoot, hCharts] ∧
    strHasPre "https://store.example.com/charts/sub".data hCharts.url.data = true ∧
    ∀ q ∈ [hRoot, hCharts],
      strHasPre "https://store.example.com/charts/sub".data q.url.data = true →
        q.url.length ≤ hCharts.url.length := by
  have h : findRepoByURL [hRoot, hCharts] "https://store.example.com/charts/sub" =
      some hCharts := by decide
  have H :=
    (findRepoByURL_longest [hRoot, hCharts] "https://store.example.com/charts/sub").1
      hCharts h
  exact ⟨h, H.1, H.2.1, H.2.2⟩

/-! ## Claim C4: legacy name/version derivation -/

theorem splitOnChar_ne_nil (c : Char) (l : List Char) : splitOnChar c l ≠ [] := by
  induction l with
  | nil => simp [splitOnChar]
  | cons x xs ih =>
    by_cases h : x = c
    · simp [splitOnChar, h]
    · simp only [splitOnChar, if_neg h]
      rcases hs : splitOnChar c xs with _ | ⟨p, ps⟩
      · simp
      · simp

theorem splitOnChar_eq (c : Char) (l : List Char) :
    (l.dropWhile (fun x => x ≠ c) = [] ∧
      splitOnChar c l = [l.takeWhile (fun x => x ≠ c)]) ∨
    (∃ t, l.dropWhile (fun x => x ≠ c) = c :: t ∧
      splitOnChar c l = l.takeWhile (fun x => x ≠ c) :: splitOnChar c t) := by
  induction l with
  | nil => exact Or.inl ⟨rfl, rfl⟩
  | cons x xs ih =>
    by_cases h : x = c
    · subst h
      refine Or.inr ⟨xs, ?_, ?_⟩
      · rw [List.dropWhile_cons]
        simp
      · rw [List.takeWhile_cons]
        simp [splitOnChar]
    · have hdrop : (x :: xs).dropWhile (fun y => y ≠ c) = xs.dropWhile (fun y => y ≠ c) := by
        rw [List.dropWhile_cons]
        simp [h]
      have htake : (x :: xs).takeWhile (fun y => y ≠ c) =
          x :: xs.takeWhile (fun y => y ≠ c) := by
        rw [List.takeWhile_cons]
        simp [h]
      rcases ih with ⟨hd, hs⟩ | ⟨t, hd, hs⟩
      · refine Or.inl ⟨by rw [hdrop, hd], ?_⟩
        rw [htake]
        simp only [splitOnChar, if_neg h, hs]
      · refine Or.inr ⟨t, by rw [hdrop, hd], ?_⟩
        rw [htake]
        simp only [splitOnChar, if_neg h, hs]

theorem splitOnChar_head (c : Char) (l : List Char) :
    ∃ ps, splitOnChar c l = l.takeWhile (fun x => x ≠ c) :: ps := by
  rcases splitOnChar_eq c l with ⟨_, hs⟩ | ⟨t, _, hs⟩
  · exact ⟨[], hs⟩
  · exact ⟨splitOnChar c t, hs⟩

/-- Counterexample to C4 as stated: for the key `a-b-c` the parser derives
version `b` (the second `-`-separated piece), not the entire portion `b-c`
after the first `-` that the claim describes. -/
theorem legacyDerive_counterexample :
    (legacyDerive "a-b-c").version = "b" ∧
    specLegacyVersionFull "a-b-c" = "b-c" ∧
    (legacyDerive "a-b-c").version ≠ specLegacyVersionFull "a-b-c" := by
  decide

/-- C4 amended: for every legacy entry whose embedded descriptor is missing
or has an empty name, the parser derives the name as the portion of the key
before the first `-`, and the version as the portion between the first and
second `-` (not the entire remainder), with a trailing `.tgz` stripped, or
the empty string when the key contains no `-`; in particular the key
`foo-1.2.3` yields name `foo` and version `1.2.3`. -/
theorem legacyDerive_amended :
    (∀ k : String, (legacyDerive k).name = specLegacyName k ∧
      (legacyDerive k).version = specLegacyVersionPiece k) ∧
    legacyDerive "foo-1.2.3" = { name := "foo", version := "1.2.3" } := by
  constructor
  · intro k
    unfold legacyDerive specLegacyName specLegacyVersionPiece
    rcases splitOnChar_eq '-' k.data with ⟨hd, hs⟩ | ⟨t, hd, hs⟩
    · rw [hs, hd]
      simp
    · rw [hs, hd]
      rcases splitOnChar_head '-' t with ⟨ps, ht⟩
      rw [ht]
      simp
  · decide

/-! ## Merge lemmas (claims C1, C9, C10) -/

theorem mergeOne_extend (acc : IndexFile) (cv : ChartVersion) (n : String)
    (vs : List ChartVersion) (h : lookupKey acc.entries n = some vs) :
    ∃ rest, lookupKey (mergeOne acc cv).entries n = some (vs ++ rest) ∧
      ∀ r ∈ rest, r = cv ∧ (vs ≠ [] → r.version ≠ "") := by
  by_cases hhas : acc.has cv.name cv.version = true
  · refine ⟨[], ?_, by simp⟩
    simp [mergeOne, hhas, h]
  · have hfalse : acc.has cv.name cv.version = false := by simpa using hhas
    have hstep : (mergeOne acc cv).entries =
        setKey acc.entries cv.name (((lookupKey acc.entries cv.name).getD []) ++ [cv]) := by
      simp [mergeOne, hfalse]
    by_cases hn : cv.name = n
    · subst hn
      refine ⟨[cv], ?_, ?_⟩
      · rw [hstep, h]
        simp only [Option.getD_some]
        exact lookupKey_setKey_self _ _ _
      · intro r hr
        rcases List.mem_singleton.mp hr with rfl
        refine ⟨rfl, fun hne hv => ?_⟩
        rcases vs with _ | ⟨v0, rest⟩
        · exact hne rfl
        · apply hhas
          simp [IndexFile.has, IndexFile.get, h, hv]
    · refine ⟨[], ?_, by simp⟩
      rw [hstep, List.append_nil, lookupKey_setKey_other _ _ _ _ (fun hh => hn hh.symm)]
      exact h

theorem mergeFold_extend (rs : List ChartVersion) :
    ∀ (acc : IndexFile) (n : String) (vs : List ChartVersion),
      lookupKey acc.entries n = some vs →
      ∃ rest, lookupKey (rs.foldl mergeOne acc).entries n = some (vs ++ rest) ∧
        ∀ r ∈ rest, r ∈ rs ∧ (vs ≠ [] → r.version ≠ "") := by
  induction rs with
  | nil =>
    intro acc n vs h
    exact ⟨[], by simpa using h, by simp⟩
  | cons cv rs' ih =>
    intro acc n vs h
    rcases mergeOne_extend acc cv n vs h with ⟨rest1, h1, hp1⟩
    rcases ih (mergeOne acc cv) n (vs ++ rest1) h1 with ⟨rest2, h2, hp2⟩
    refine ⟨rest1 ++ rest2, ?_, ?_⟩
    · rw [List.foldl_cons]
      rw [h2, List.append_assoc]
    · intro r hr
      rcases List.mem_append.mp hr with h3 | h3
      · rcases hp1 r h3 with ⟨rfl, hv⟩
        exact ⟨List.mem_cons_self _ _, hv⟩
      · rcases hp2 r h3 with ⟨_, hv⟩
        constructor
        · exact List.mem_cons_of_mem _ (hp2 r h3).1
        · intro hne
          exact hv (by simp [hne])

theorem hasVerAt_exists (i : IndexFile) (n v : String) :
    hasVerAt i n v = true ↔ ∃ r ∈ listAt i n, r.version = v := by
  unfold hasVerAt
  rw [List.any_eq_true]
  constructor
  · rintro ⟨r, hr, hp⟩
    exact ⟨r, hr, by simpa using hp⟩
  · rintro ⟨r, hr, hp⟩
    exact ⟨r, hr, by simpa using hp⟩

theorem has_iff_hasVerAt (i : IndexFile) (n v : String) (hv : v ≠ "") :
    i.has n v = true ↔ hasVerAt i n v = true := by
  rw [hasVerAt_exists]
  unfold IndexFile.has IndexFile.get listAt
  rcases hl : lookupKey i.entries n with _ | vs
  · simp
  · rcases vs with _ | ⟨v0, rest⟩
    · simp
    · dsimp only
      rw [if_neg hv]
      simp only [Option.getD_some]
      rcases hf : (v0 :: rest).find? (fun ver => ver.version = v) with _ | r
    
      · rw [hf]
        dsimp only
        rw [List.find?_eq_none] at hf
        simp only [Bool.false_eq_true, false_iff]
        rintro ⟨r, hr, hp⟩
        exact absurd hp (by simpa using hf r hr)
      · rw [hf]
        dsimp only
        have hveq := List.find?_some hf
        have hmem := List.mem_of_find?_eq_some hf
        simp only [true_iff]
        exact ⟨r, hmem, by simpa using hveq⟩


theorem hasVerAt_mergeOne_mono (acc : IndexFile) (cv : ChartVersion) (n v : String)
    (h : hasVerAt acc n v = true) : hasVerAt (mergeOne acc cv) n v = true := by
  rcases (hasVerAt_exists acc n v).mp h with ⟨r, hr, hp⟩
  unfold listAt at hr
  rcases hl : lookupKey acc.entries n with _ | vs
  · rw [hl] at hr
    cases hr
  · rw [hl] at hr
    simp only [Option.getD_some] at hr
    rcases mergeOne_extend acc cv n vs hl with ⟨rest, h1, _⟩
    rw [hasVerAt_exists]
    refine ⟨r, ?_, hp⟩
    unfold listAt
    rw [h1]
    simp [List.mem_append, hr]

theorem hasVerAt_foldl_mono (rs : List ChartVersion) :
    ∀ (acc : IndexFile) (n v : String), hasVerAt acc n v = true →
      hasVerAt (rs.foldl mergeOne acc) n v = true := by
  induction rs with
  | nil => intro acc n v h; exact h
  | cons cv rs' ih =>
    intro acc n v h
    rw [List.foldl_cons]
    exact ih _ n v (hasVerAt_mergeOne_mono acc cv n v h)

theorem mergeOne_adds (acc : IndexFile) (cv : ChartVersion) (hv : cv.version ≠ "") :
    hasVerAt (mergeOne acc cv) cv.name cv.version = true := by
  by_cases hhas : acc.has cv.name cv.version = true
  · exact hasVerAt_mergeOne_mono acc cv _ _ ((has_iff_hasVerAt acc _ _ hv).mp hhas)
  · have hfalse : acc.has cv.name cv.version = false := by simpa using hhas
    rw [hasVerAt_exists]
    refine ⟨cv, ?_, rfl⟩
    unfold listAt
    have hstep : (mergeOne acc cv).entries =
        setKey acc.entries cv.name (((lookupKey acc.entries cv.name).getD []) ++ [cv]) := by
      simp [mergeOne, hfalse]
    rw [hstep, lookupKey_setKey_self]
    simp

theorem mergeFold_hasVer (rs : List ChartVersion) :
    ∀ (acc : IndexFile) (cv : ChartVersion), cv ∈ rs → cv.version ≠ "" →
      hasVerAt (rs.foldl mergeOne acc) cv.name cv.version = true := by
  induction rs with
  | nil =>
    intro acc cv h
    cases h
  | cons r0 rs' ih =>
    intro acc cv h hv
    rcases List.mem_cons.mp h with h1 | h1
    · subst h1
      rw [List.foldl_cons]
      exact hasVerAt_foldl_mono rs' _ _ _ (mergeOne_adds acc cv hv)
    · rw [List.foldl_cons]
      exact ih _ cv h1 hv

theorem mergeOne_listAt (acc : IndexFile) (cv : ChartVersion) (n : String) :
    ∀ r ∈ listAt (mergeOne acc cv) n, r ∈ listAt acc n ∨ (r = cv ∧ cv.name = n) := by
  intro r hr
  by_cases hhas : acc.has cv.name cv.version = true
  · left
    simpa [mergeOne, hhas] using hr
  · have hfalse : acc.has cv.name cv.version = false := by simpa using hhas
    have hstep : (mergeOne acc cv).entries =
        setKey acc.entries cv.name (((lookupKey acc.entries cv.name).getD []) ++ [cv]) := by
      simp [mergeOne, hfalse]
    by_cases hn : cv.name = n
    · subst hn
      unfold listAt at hr
      rw [hstep, lookupKey_setKey_self] at hr
      simp only [Option.getD_some] at hr
      rcases List.mem_append.mp hr with h1 | h1
      · left
        unfold listAt
        exact h1
      · right
        exact ⟨List.mem_singleton.mp h1, rfl⟩
    · left
      unfold listAt at hr ⊢
      rw [hstep, lookupKey_setKey_other _ _ _ _ (fun hh => hn hh.symm)] at hr
      exact hr

theorem mergeFold_provenance (rs : List ChartVersion) :
    ∀ (acc : IndexFile) (n : String) (r : ChartVersion),
      r ∈ listAt (rs.foldl mergeOne acc) n →
        r ∈ listAt acc n ∨ (r ∈ rs ∧ r.name = n) := by
  induction rs with
  | nil =>
    intro acc n r hr
    exact Or.inl hr
  | cons cv rs' ih =>
    intro acc n r hr
    rw [List.foldl_cons] at hr
    rcases ih (mergeOne acc cv) n r hr with h1 | h1
    · rcases mergeOne_listAt acc cv n r h1 with h2 | h2
      · exact Or.inl h2
      · exact Or.inr ⟨h2.1 ▸ List.mem_cons_self _ _, h2.1 ▸ h2.2⟩
    · exact Or.inr ⟨List.mem_cons_of_mem _ h1.1, h1.2⟩

theorem mergeFold_const (rs : List ChartVersion) :
    ∀ c : IndexFile, (∀ cv ∈ rs, c.has cv.name cv.version = true) →
      rs.foldl mergeOne c = c := by
  induction rs with
  | nil =>
    intro c _
    rfl
  | cons cv rs' ih =>
    intro c h
    rw [List.foldl_cons]
    have hone : mergeOne c cv = c := by
      simp [mergeOne, h cv (List.mem_cons_self _ _)]
    rw [hone]
    exact ih c (fun r hr => h r (List.mem_cons_of_mem _ hr))

theorem records_mem (i : IndexFile) (cv : ChartVersion) (h : cv ∈ i.records) :
    ∃ p ∈ i.entries, cv ∈ p.2 := by
  unfold IndexFile.records at h
  rcases List.mem_flatten.mp h with ⟨l, hl, hcv⟩
  rcases List.mem_map.mp hl with ⟨p, hp, rfl⟩
  exact ⟨p, hp, hcv⟩

/-! ## Claim C1: Merge is non-destructive -/

/-- Counterexample to C1 as stated: the pair `("x", "")` occurs in `ceOther`
and is absent from the receiver `c1Recv` (whose only record for `x` has
version `1.0.0`), yet after `Merge` the receiver still has no record with
that pair — `Has` treats the empty version as matching any present record,
so the record is never appended. -/
theorem merge_skips_empty_version_pair :
    hasPairRec ceOther "x" "" = true ∧
    hasPairRec c1Recv "x" "" = false ∧
    hasPairRec (c1Recv.merge ceOther) "x" "" = false := by
  decide

/-- C1 amended: `Merge` is non-destructive to the receiver — every name's
existing list survives as a prefix of the merged list (so each existing
record, digest included, is unchanged); and every record of `other` with a
NON-EMPTY version is represented after the merge: the receiver's list for
that record's name then contains that version, and if the receiver had no
record of that version under that name before the merge, a record carrying
exactly that name and version is copied verbatim from `other`.  (Records of
`other` whose version is the empty string are exempt: they are appended only
when `Has(name, "")` fails, cf. claim C10.) -/
theorem merge_nondestructive_amended (i f : IndexFile) :
    (∀ n vs, lookupKey i.entries n = some vs →
      ∃ rest, lookupKey (i.merge f).entries n = some (vs ++ rest)) ∧
    (∀ cv ∈ f.records, cv.version ≠ "" →
      hasVerAt (i.merge f) cv.name cv.version = true ∧
      (hasVerAt i cv.name cv.version = false →
        ∃ r, r ∈ f.records ∧ r.name = cv.name ∧ r.version = cv.version ∧
          r ∈ listAt (i.merge f) cv.name)) := by
  constructor
  · intro n vs h
    rcases mergeFold_extend f.records i n vs h with ⟨rest, h1, _⟩
    exact ⟨rest, h1⟩
  · intro cv hcv hv
    have hhas : hasVerAt (i.merge f) cv.name cv.version = true :=
      mergeFold_hasVer f.records i cv hcv hv
    refine ⟨hhas, fun hnone => ?_⟩
    rcases (hasVerAt_exists _ _ _).mp hhas with ⟨r, hr, hrv⟩
    rcases mergeFold_provenance f.records i cv.name r hr with h1 | h1
    · exfalso
      have : hasVerAt i cv.name cv.version = true :=
        (hasVerAt_exists _ _ _).mpr ⟨r, h1, hrv⟩
      rw [this] at hnone
      cases hnone
    · exact ⟨r, h1.1, h1.2, hrv, hr⟩

/-- Witness for C1 amended: merging `x ↦ [1.0.0, 2.0.0]` into a receiver
holding `x ↦ [1.0.0]` keeps the old list as a prefix and copies the `2.0.0`
record from the other catalog. -/
theorem merge_nondestructive_amended_witness :
    (∃ rest, lookupKey (c1Recv.merge c1Other).entries "x" = some ([rW1] ++ rest)) ∧
    hasVerAt (c1Recv.merge c1Other) "x" "2.0.0" = true ∧
    (∃ r, r ∈ c1Other.records ∧ r.name = "x" ∧ r.version = "2.0.0" ∧
      r ∈ listAt (c1Recv.merge c1Other) "x") := by
  have h1 := (merge_nondestructive_amended c1Recv c1Other).1 "x" [rW1] (by decide)
  have h2 := (merge_nondestructive_amended c1Recv c1Other).2 rW2 (by decide) (by decide)
  exact ⟨h1, h2.1, h2.2 (by decide)⟩

/-! ## Claim C9: Merge idempotence -/

/-- Counterexample to C9 as stated: `c9ce` stores a record named `x` under
the unrelated map key `k` (a shape reachable by deserializing a document
whose entries key differs from the embedded metadata name).  `Has("x", ...)`
then fails, so `Merge(c, c)` appends the record a second time under `x`. -/
theorem merge_self_counterexample : c9ce.merge c9ce ≠ c9ce := by
  decide

/-- C9 amended: `Merge(c, c)` leaves `c` unchanged provided every record of
`c` can be found back through `Has` under its own name and version — true in
particular for every catalog built by `Add`, which stores each record under
its own metadata name. -/
theorem merge_self_id_amended (c : IndexFile) (h : wellLocated c) : c.merge c = c := by
  unfold IndexFile.merge
  apply mergeFold_const
  intro cv hcv
  rcases records_mem c cv hcv with ⟨p, hp, hr⟩
  exact h p hp cv hr

/-- Witness for C9 amended at the two-version catalog `cW`. -/
theorem merge_self_id_amended_witness : wellLocated cW ∧ cW.merge cW = cW :=
  ⟨by decide, merge_self_id_amended cW (by decide)⟩

/-! ## Claim C10: the empty-version wildcard -/

/-- C10: `Has(name, "")` is true whenever the name maps to a non-empty list,
regardless of the stored version strings; consequently `Merge` never copies
a record with an empty version from `other` into a receiver that already
holds at least one record under that record's name — every record found
under that name after the merge is either an original one or has a non-empty
version. -/
theorem has_empty_version_wildcard (i : IndexFile) (name : String)
    (vs : List ChartVersion) (h : lookupKey i.entries name = some vs) (hne : vs ≠ []) :
    i.has name "" = true ∧
    ∀ f : IndexFile, ∀ r ∈ listAt (i.merge f) name, r ∈ vs ∨ r.version ≠ "" := by
  constructor
  · rcases vs with _ | ⟨v0, rest⟩
    · exact absurd rfl hne
    · simp [IndexFile.has, IndexFile.get, h]
  · intro f r hr
    rcases mergeFold_extend f.records i name vs h with ⟨rest, hl, hprop⟩
    unfold listAt IndexFile.merge at hr
    rw [hl] at hr
    simp only [Option.getD_some] at hr
    rcases List.mem_append.mp hr with h1 | h1
    · exact Or.inl h1
    · exact Or.inr ((hprop r h1).2 hne)

/-- Witness for C10: the receiver `cW` holds two records under `x`; after
merging in a catalog whose only `x` record has an empty version, everything
under `x` is an original record or has a non-empty version. -/
theorem has_empty_version_wildcard_witness :
    cW.has "x" "" = true ∧
    ∀ r ∈ listAt (cW.merge ceOther) "x", r ∈ [rW1, rW2] ∨ r.version ≠ "" := by
  have H := has_empty_version_wildcard cW "x" [rW1, rW2] (by decide) (by decide)
  exact ⟨H.1, H.2 ceOther⟩

/-! ## Comparator lemmas (claims C5, C2) -/

theorem goStringLt_asymm (a : List Char) :
    ∀ b, goStringLt a b = true → goStringLt b a = false := by
  induction a with
  | nil =>
    intro b h
    rcases b with _ | ⟨y, ys⟩
    · cases h
    · rfl
  | cons x xs ih =>
    intro b h
    rcases b with _ | ⟨y, ys⟩
    · cases h
    · unfold goStringLt at h ⊢
      by_cases hxy : x < y
      · rw [if_neg (lt_asymm hxy), if_pos hxy]
      · rw [if_neg hxy] at h
        by_cases hyx : y < x
        · rw [if_pos hyx] at h
          cases h
        · rw [if_neg hyx] at h
          rw [if_neg hyx, if_neg hxy]
          exact ih ys h

theorem goStringLt_total (a : List Char) :
    ∀ b, a ≠ b → goStringLt a b = true ∨ goStringLt b a = true := by
  induction a with
  | nil =>
    intro b hne
    rcases b with _ | ⟨y, ys⟩
    · exact absurd rfl hne
    · exact Or.inl rfl
  | cons x xs ih =>
    intro b hne
    rcases b with _ | ⟨y, ys⟩
    · exact Or.inr rfl
    · rcases lt_trichotomy x y with h | h | h
      · left
        unfold goStringLt
        rw [if_pos h]
      · subst h
        have hxs : xs ≠ ys := fun hh => hne (by rw [hh])
        rcases ih ys hxs with h1 | h1
        · left
          unfold goStringLt
          rw [if_neg (lt_irrefl x), if_neg (lt_irrefl x)]
          exact h1
        · right
          unfold goStringLt
          rw [if_neg (lt_irrefl x), if_neg (lt_irrefl x)]
          exact h1
      · right
        unfold goStringLt
        rw [if_pos h]

theorem comparePrePart_self (s : List Char) : comparePrePart s s = 0 := by
  simp [comparePrePart]

theorem comparePrePart_ne_zero (s o : List Char) (h : s ≠ o) : comparePrePart s o ≠ 0 := by
  unfold comparePrePart
  rw [if_neg h]
  by_cases h2 : s = []
  · rw [if_pos h2]
    split_ifs <;> simp
  · rw [if_neg h2]
    by_cases h3 : o = []
    · rw [if_pos h3, if_neg h2]
      simp
    · rw [if_neg h3]
      rcases hps : parseIntGo s with _ | si <;> rcases hpo : parseIntGo o with _ | oi <;>
        dsimp only <;> first | (split_ifs <;> simp) | simp

theorem comparePrePart_eq_zero (s o : List Char) : comparePrePart s o = 0 ↔ s = o := by
  constructor
  · intro h
    by_contra hne
    exact comparePrePart_ne_zero s o hne h
  · rintro rfl
    exact comparePrePart_self s

theorem comparePrePart_vals (s o : List Char) :
    comparePrePart s o = -1 ∨ comparePrePart s o = 0 ∨ comparePrePart s o = 1 := by
  unfold comparePrePart
  by_cases h1 : s = o
  · rw [if_pos h1]
    simp
  · rw [if_neg h1]
    by_cases h2 : s = []
    · rw [if_pos h2]
      split_ifs <;> simp
    · rw [if_neg h2]
      by_cases h3 : o = []
      · rw [if_pos h3, if_neg h2]
        simp
      · rw [if_neg h3]
        rcases hps : parseIntGo s with _ | si <;> rcases hpo : parseIntGo o with _ | oi <;>
          dsimp only <;> first | (split_ifs <;> simp) | simp

theorem comparePrePart_pos (s o : List Char) (h : comparePrePart s o = 1) :
    comparePrePart o s = -1 := by
  by_cases h1 : s = o
  · rw [h1, comparePrePart_self] at h
    cases h
  · unfold comparePrePart at h ⊢
    rw [if_neg h1] at h
    rw [if_neg (Ne.symm h1)]
    by_cases h2 : s = []
    · rw [if_pos h2] at h
      by_cases h3 : o = []
      · exact absurd (h2.trans h3.symm) h1
      · rw [if_neg h3] at h
        cases h
    · by_cases h3 : o = []
      · rw [if_neg h2, if_pos h3] at h
        rw [if_pos h3, if_neg h2]
      · rw [if_neg h2, if_neg h3] at h
        rw [if_neg h3, if_neg h2]
        rcases hps : parseIntGo s with _ | si <;> rcases hpo : parseIntGo o with _ | oi <;>
          rw [hps, hpo] at h <;> dsimp only at h ⊢
        · -- both alphanumeric: Go string comparison
          by_cases hlt : goStringLt o s = true
          · rw [goStringLt_asymm o s hlt]
            simp
          · rw [if_neg hlt] at h
            exact absurd h (by decide)
        · -- s numeric, o alphanumeric: impossible, the code reports -1 there
          exact absurd h (by decide)
        · -- both numeric
          by_cases hlt : oi < si
          · rw [if_neg (lt_asymm hlt)]
          · rw [if_neg hlt] at h
            exact absurd h (by decide)

theorem comparePrePart_nil_right (s : List Char) (h : s ≠ []) :
    comparePrePart s [] = 1 ∧ comparePrePart [] s = -1 := by
  constructor
  · unfold comparePrePart
    rw [if_neg h, if_neg h, if_pos rfl, if_neg h]
  · unfold comparePrePart
    rw [if_neg (Ne.symm h), if_pos rfl, if_neg h]

theorem comparePad_dual (l : List (List Char)) :
    (comparePadRight l = 1 → comparePadLeft l = -1) ∧
    (comparePadRight l = 0 → comparePadLeft l = 0) ∧
    (comparePadLeft l = 1 → comparePadRight l = -1) ∧
    (comparePadLeft l = 0 → comparePadRight l = 0) := by
  induction l with
  | nil =>
    refine ⟨fun h => absurd h (by decide), fun _ => rfl,
      fun h => absurd h (by decide), fun _ => rfl⟩
  | cons s ss ih =>
    by_cases hs : s = []
    · subst hs
      have e1 : comparePadRight ([] :: ss) = comparePadRight ss := by
        simp [comparePadRight, comparePrePart_self]
      have e2 : comparePadLeft ([] :: ss) = comparePadLeft ss := by
        simp [comparePadLeft, comparePrePart_self]
      rw [e1, e2]
      exact ih
    · rcases comparePrePart_nil_right s hs with ⟨hr, hl⟩
      have e1 : comparePadRight (s :: ss) = 1 := by
        simp [comparePadRight, hr]
      have e2 : comparePadLeft (s :: ss) = -1 := by
        simp [comparePadLeft, hl]
      rw [e1, e2]
      refine ⟨fun _ => rfl, fun h => absurd h (by decide),
        fun h => absurd h (by decide), fun h => absurd h (by decide)⟩

theorem comparePreParts_nil_right (os : List (List Char)) :
    comparePreParts os [] = comparePadRight os := by
  cases os <;> rfl

theorem comparePreParts_nil_left (os : List (List Char)) :
    comparePreParts [] os = comparePadLeft os := by
  cases os <;> rfl

theorem comparePreParts_dual (ss : List (List Char)) :
    ∀ os, (comparePreParts ss os = 1 → comparePreParts os ss = -1) ∧
      (comparePreParts ss os = 0 → comparePreParts os ss = 0) := by
  induction ss with
  | nil =>
    intro os
    rw [comparePreParts_nil_left os, comparePreParts_nil_right os]
    exact ⟨(comparePad_dual os).2.2.1, (comparePad_dual os).2.2.2⟩
  | cons s ss' ih =>
    intro os
    rcases os with _ | ⟨o, os'⟩
    · rw [comparePreParts_nil_right (s :: ss')]
      exact ⟨(comparePad_dual (s :: ss')).1, (comparePad_dual (s :: ss')).2.1⟩
    · by_cases hd : comparePrePart s o = 0
      · have hso : s = o := (comparePrePart_eq_zero s o).mp hd
        subst hso
        have e1 : comparePreParts (s :: ss') (s :: os') = comparePreParts ss' os' := by
          simp [comparePreParts, comparePrePart_self]
        have e2 : comparePreParts (s :: os') (s :: ss') = comparePreParts os' ss' := by
          simp [comparePreParts, comparePrePart_self]
        rw [e1, e2]
        exact ih os'
      · have hd' : comparePrePart o s ≠ 0 := by
          intro hh
          exact hd (((comparePrePart_eq_zero o s).mp hh) ▸ comparePrePart_self s)
        have e1 : comparePreParts (s :: ss') (o :: os') = comparePrePart s o := by
          simp [comparePreParts, hd]
        have e2 : comparePreParts (o :: os') (s :: ss') = comparePrePart o s := by
          simp [comparePreParts, hd']
        rw [e1, e2]
        refine ⟨fun h => comparePrePart_pos s o h, fun h => absurd h hd⟩

theorem comparePadRight_vals (l : List (List Char)) :
    comparePadRight l = -1 ∨ comparePadRight l = 0 ∨ comparePadRight l = 1 := by
  induction l with
  | nil => simp [comparePadRight]
  | cons s ss ih =>
    by_cases hd : comparePrePart s [] = 0
    · simpa [comparePadRight, hd] using ih
    · have : comparePadRight (s :: ss) = comparePrePart s [] := by
        simp [comparePadRight, hd]
      rw [this]
      exact comparePrePart_vals s []

theorem comparePadLeft_vals (l : List (List Char)) :
    comparePadLeft l = -1 ∨ comparePadLeft l = 0 ∨ comparePadLeft l = 1 := by
  induction l with
  | nil => simp [comparePadLeft]
  | cons s ss ih =>
    by_cases hd : comparePrePart [] s = 0
    · simpa [comparePadLeft, hd] using ih
    · have : comparePadLeft (s :: ss) = comparePrePart [] s := by
        simp [comparePadLeft, hd]
      rw [this]
      exact comparePrePart_vals [] s

theorem comparePreParts_vals (ss : List (List Char)) :
    ∀ os, comparePreParts ss os = -1 ∨ comparePreParts ss os = 0 ∨
      comparePreParts ss os = 1 := by
  induction ss with
  | nil =>
    intro os
    rw [comparePreParts_nil_left os]
    exact comparePadLeft_vals os
  | cons s ss' ih =>
    intro os
    rcases os with _ | ⟨o, os'⟩
    · rw [comparePreParts_nil_right]
      exact comparePadRight_vals (s :: ss')
    · by_cases hd : comparePrePart s o = 0
      · have : comparePreParts (s :: ss') (o :: os') = comparePreParts ss' os' := by
          simp [comparePreParts, hd]
        rw [this]
        exact ih os'
      · have : comparePreParts (s :: ss') (o :: os') = comparePrePart s o := by
          simp [comparePreParts, hd]
        rw [this]
        exact comparePrePart_vals s o

theorem comparePreParts_self (l : List (List Char)) : comparePreParts l l = 0 := by
  induction l with
  | nil => rfl
  | cons s ss ih =>
    simp [comparePreParts, comparePrePart_self, ih]

theorem compareSegment_self (a : Nat) : compareSegment a a = 0 := by
  simp [compareSegment]

theorem compareSegment_flip (a b : Nat) : compareSegment b a = -compareSegment a b := by
  rcases lt_trichotomy a b with h | h | h
  · rw [compareSegment, compareSegment, if_neg (lt_asymm h), if_pos h, if_pos h]
    rfl
  · subst h
    rw [compareSegment_self]
    rfl
  · rw [compareSegment, compareSegment, if_pos h, if_neg (lt_asymm h), if_pos h]

theorem compareSegment_vals (a b : Nat) :
    compareSegment a b = -1 ∨ compareSegment a b = 0 ∨ compareSegment a b = 1 := by
  unfold compareSegment
  split_ifs <;> simp

theorem lexStep (a b r s : Int) (hb : b = -a)
    (hr : (r = 1 → s = -1) ∧ (r = 0 → s = 0)) :
    ((if a ≠ 0 then a else r) = 1 → (if b ≠ 0 then b else s) = -1) ∧
    ((if a ≠ 0 then a else r) = 0 → (if b ≠ 0 then b else s) = 0) := by
  subst hb
  by_cases h : a = 0
  · subst h
    rw [if_neg (fun hc => hc rfl), if_neg (fun hc => hc (by rfl : (-(0 : Int)) = 0))]
    exact hr
  · rw [if_pos h, if_pos (fun hc => h (by omega))]
    constructor
    · intro hh
      rw [hh]
    · intro hh
      exact absurd hh h

theorem lexVals (a r : Int) (ha : a = -1 ∨ a = 0 ∨ a = 1) (hr : r = -1 ∨ r = 0 ∨ r = 1) :
    (if a ≠ 0 then a else r) = -1 ∨ (if a ≠ 0 then a else r) = 0 ∨
      (if a ≠ 0 then a else r) = 1 := by
  by_cases h : a = 0
  · rw [if_neg (fun hc => hc h)]
    exact hr
  · rw [if_pos h]
    exact ha

theorem compareV_dual (v o : Semver) :
    (Semver.compareV v o = 1 → Semver.compareV o v = -1) ∧
    (Semver.compareV v o = 0 → Semver.compareV o v = 0) := by
  simp only [Semver.compareV]
  refine lexStep _ _ _ _ (compareSegment_flip v.major o.major) ?_
  refine lexStep _ _ _ _ (compareSegment_flip v.minor o.minor) ?_
  refine lexStep _ _ _ _ (compareSegment_flip v.patch o.patch) ?_
  by_cases hv : v.pre = []
  · by_cases ho : o.pre = [] <;> simp [hv, ho]
  · by_cases ho : o.pre = []
    · simp [hv, ho]
    · simp only [hv, ho, decide_False, Bool.false_and, Bool.and_false, Bool.false_eq_true,
        if_false]
      exact comparePreParts_dual (splitOnChar '.' v.pre) (splitOnChar '.' o.pre)

theorem compareV_vals (v o : Semver) :
    Semver.compareV v o = -1 ∨ Semver.compareV v o = 0 ∨ Semver.compareV v o = 1 := by
  simp only [Semver.compareV]
  refine lexVals _ _ (compareSegment_vals _ _) ?_
  refine lexVals _ _ (compareSegment_vals _ _) ?_
  refine lexVals _ _ (compareSegment_vals _ _) ?_
  by_cases hv : v.pre = []
  · by_cases ho : o.pre = [] <;> simp [hv, ho]
  · by_cases ho : o.pre = []
    · simp [hv, ho]
    · simp only [hv, ho, decide_False, Bool.false_and, Bool.and_false, Bool.false_eq_true,
        if_false]
      exact comparePreParts_vals (splitOnChar '.' v.pre) (splitOnChar '.' o.pre)

theorem compareV_self (v : Semver) : Semver.compareV v v = 0 := by
  simp only [Semver.compareV, compareSegment_self]
  rw [if_neg (fun hc => hc rfl), if_neg (fun hc => hc rfl), if_neg (fun hc => hc rfl)]
  by_cases hv : v.pre = []
  · simp [hv]
  · simp [hv, comparePreParts_self]

theorem versionLess_mal_left (a b : String) (h : semverParse a = none) :
    versionLess a b = true := by
  simp [versionLess, h]

theorem versionLess_mal_right (a b : String) (x : Semver) (ha : semverParse a = some x)
    (hb : semverParse b = none) : versionLess a b = false := by
  simp [versionLess, ha, hb]

theorem versionLess_wf (a b : String) (x y : Semver) (ha : semverParse a = some x)
    (hb : semverParse b = some y) : versionLess a b = x.lessThan y := by
  simp [versionLess, ha, hb]

theorem lessThan_of_compare_neg (x y : Semver) (h : Semver.compareV x y = -1) :
    Semver.lessThan x y = true := by
  simp [Semver.lessThan, h]

theorem lessThan_of_compare_nonneg_zero (x y : Semver) (h : Semver.compareV x y = 0) :
    Semver.lessThan x y = false := by
  simp [Semver.lessThan, h]

theorem lessThan_of_compare_pos (x y : Semver) (h : Semver.compareV x y = 1) :
    Semver.lessThan x y = false := by
  simp [Semver.lessThan, h]

/-! ## Claim C5: asymmetry of the version ordering -/

/-- Counterexample to C5 as stated: at the well-formed pair
`a = b = "1.0.0"` both orderings are `false`, so
`VersionOrdering(a,b) = !VersionOrdering(b,a)` fails. -/
theorem versionOrdering_equal_counterexample :
    (semverParse "1.0.0").isSome = true ∧
    versionLess "1.0.0" "1.0.0" = false ∧
    versionLess "1.0.0" "1.0.0" ≠ (!versionLess "1.0.0" "1.0.0") := by
  decide

/-- C5 amended: for well-formed `a` and `b`,
`VersionOrdering(a,b) = !VersionOrdering(b,a)` holds unless the two versions
have equal semver precedence (`Compare = 0`, in which case both orderings
are `false` — e.g. equal strings, or versions differing only in build
metadata), or each compares strictly below the other (both orderings `true`,
which the library produces for prerelease identifiers that are numerically
equal but textually distinct, such as `1.0.0-01` versus `1.0.0-1`). -/
theorem versionOrdering_antisym_amended (a b : String) (va vb : Semver)
    (ha : semverParse a = some va) (hb : semverParse b = some vb) :
    versionLess a b = (!versionLess b a) ∨
    (Semver.compareV va vb = 0 ∧ versionLess a b = false ∧ versionLess b a = false) ∨
    (versionLess a b = true ∧ versionLess b a = true) := by
  have hab : versionLess a b = va.lessThan vb := versionLess_wf a b va vb ha hb
  have hba : versionLess b a = vb.lessThan va := versionLess_wf b a vb va hb ha
  rcases compareV_vals va vb with h | h | h
  · have h1 : Semver.lessThan va vb = true := lessThan_of_compare_neg va vb h
    rcases compareV_vals vb va with h' | h' | h'
    · exact Or.inr (Or.inr ⟨hab.trans h1, hba.trans (lessThan_of_compare_neg vb va h')⟩)
    · exfalso
      have h0 := (compareV_dual vb va).2 h'
      rw [h0] at h
      exact absurd h (by decide)
    · left
      have h2 : Semver.lessThan vb va = false := lessThan_of_compare_pos vb va h'
      rw [hab, hba, h1, h2]
      rfl
  · right
    left
    have h' := (compareV_dual va vb).2 h
    exact ⟨h, hab.trans (lessThan_of_compare_nonneg_zero va vb h),
      hba.trans (lessThan_of_compare_nonneg_zero vb va h')⟩
  · left
    have h' := (compareV_dual va vb).1 h
    have h1 : Semver.lessThan va vb = false := lessThan_of_compare_pos va vb h
    have h2 : Semver.lessThan vb va = true := lessThan_of_compare_neg vb va h'
    rw [hab, hba, h1, h2]
    rfl

/-- Witness for C5 amended at the well-formed pair `("1.0.0", "2.0.0")`. -/
theorem versionOrdering_antisym_amended_witness :
    versionLess "1.0.0" "2.0.0" = (!versionLess "2.0.0" "1.0.0") ∨
    (Semver.compareV ⟨1, 0, 0, [], []⟩ ⟨2, 0, 0, [], []⟩ = 0 ∧
      versionLess "1.0.0" "2.0.0" = false ∧ versionLess "2.0.0" "1.0.0" = false) ∨
    (versionLess "1.0.0" "2.0.0" = true ∧ versionLess "2.0.0" "1.0.0" = true) :=
  versionOrdering_antisym_amended "1.0.0" "2.0.0" ⟨1, 0, 0, [], []⟩ ⟨2, 0, 0, [], []⟩
    (by decide) (by decide)

/-! ## Sorting lemmas and claim C2 -/

theorem versionLess_self_wf (a : String) (x : Semver) (h : semverParse a = some x) :
    versionLess a a = false := by
  rw [versionLess_wf a a x x h h]
  exact lessThan_of_compare_nonneg_zero x x (compareV_self x)

theorem insertDesc_perm (x : ChartVersion) (l : List ChartVersion) :
    (insertDesc x l).Perm (x :: l) := by
  induction l with
  | nil => exact List.Perm.refl _
  | cons y ys ih =>
    unfold insertDesc
    by_cases hc : versionLess y.version x.version = true
    · rw [if_pos hc]
    · rw [if_neg hc]
      exact (ih.cons y).trans (List.Perm.swap x y ys)

theorem sortVersionsDesc_perm (l : List ChartVersion) : (sortVersionsDesc l).Perm l := by
  induction l with
  | nil => exact List.Perm.refl _
  | cons x xs ih =>
    exact (insertDesc_perm x (sortVersionsDesc xs)).trans (ih.cons x)

theorem insertDesc_pairwise (x : ChartVersion) (l : List ChartVersion)
    (hl : l.Pairwise sortedRel) (ht : vlTrans (x :: l)) :
    (insertDesc x l).Pairwise sortedRel := by
  induction l with
  | nil => simp [insertDesc, List.pairwise_singleton]
  | cons y ys ih =>
    have hmx : x ∈ x :: y :: ys := List.mem_cons_self _ _
    have hmy : y ∈ x :: y :: ys := List.mem_cons_of_mem _ (List.mem_cons_self _ _)
    have hl' := List.pairwise_cons.mp hl
    unfold insertDesc
    by_cases hc : versionLess y.version x.version = true
    · rw [if_pos hc]
      refine List.Pairwise.cons ?_ hl
      intro z hz
      have hmz : z ∈ x :: y :: ys := List.mem_cons_of_mem _ hz
      constructor
      · intro hx
        rcases hpy : semverParse y.version with _ | vy
        · rcases List.mem_cons.mp hz with rfl | hz'
          · exact hpy
          · exact (hl'.1 z hz').1 hpy
        · exfalso
          have hfalse := versionLess_mal_right y.version x.version vy hpy hx
          rw [hfalse] at hc
          cases hc
      · intro hx
        rcases hpx : semverParse x.version with _ | vx
        · exact absurd hpx hx
        rcases hpz : semverParse z.version with _ | vz
        · exact versionLess_mal_right x.version z.version vx hpx hpz
        by_contra hne
        have hxz : versionLess x.version z.version = true := by
          revert hne
          cases versionLess x.version z.version <;> simp
        rcases List.mem_cons.mp hz with rfl | hz'
        · have h3 := ht z hmz x hmx z hmz hc hxz
          rw [versionLess_self_wf z.version vz hpz] at h3
          cases h3
        · rcases hpy : semverParse y.version with _ | vy
          · have := (hl'.1 z hz').1 hpy
            rw [hpz] at this
            cases this
          · have hyz := (hl'.1 z hz').2 (fun hh => by rw [hpy] at hh; cases hh)
            have h3 := ht y hmy x hmx z hmz hc hxz
            rw [hyz] at h3
            cases h3
    · rw [if_neg hc]
      have hc' : versionLess y.version x.version = false := by
        revert hc
        cases versionLess y.version x.version <;> simp
      have hsub : ∀ z, z ∈ x :: ys → z ∈ x :: y :: ys := by
        intro z hz
        rcases List.mem_cons.mp hz with rfl | hz'
        · exact hmx
        · exact List.mem_cons_of_mem _ (List.mem_cons_of_mem _ hz')
      refine List.Pairwise.cons ?_ (ih hl'.2 ?_)
      · intro z hz
        rcases List.mem_cons.mp ((insertDesc_perm x ys).mem_iff.mp hz) with rfl | hz'
        · constructor
          · intro hy
            exfalso
            rw [versionLess_mal_left y.version z.version hy] at hc'
            cases hc'
          · intro _
            exact hc'
        · exact hl'.1 z hz'
      · intro u hu v hv w hw
        exact ht u (hsub u hu) v (hsub v hv) w (hsub w hw)

theorem sortVersionsDesc_pairwise (l : List ChartVersion) (ht : vlTrans l) :
    (sortVersionsDesc l).Pairwise sortedRel := by
  induction l with
  | nil => exact List.Pairwise.nil
  | cons x xs ih =>
    have hsub : ∀ z, z ∈ x :: sortVersionsDesc xs → z ∈ x :: xs := by
      intro z hz
      rcases List.mem_cons.mp hz with rfl | hz'
      · exact List.mem_cons_self _ _
      · exact List.mem_cons_of_mem _ ((sortVersionsDesc_perm xs).mem_iff.mp hz')
    refine insertDesc_pairwise x (sortVersionsDesc xs) ?_ ?_
    · exact ih (fun u hu v hv w hw =>
        ht u (List.mem_cons_of_mem _ hu) v (List.mem_cons_of_mem _ hv)
          w (List.mem_cons_of_mem _ hw))
    · intro u hu v hv w hw
      exact ht u (hsub u hu) v (hsub v hv) w (hsub w hw)

theorem lookupKey_map_sort (e : List (String × List ChartVersion)) (n : String) :
    lookupKey (e.map (fun p => (p.1, sortVersionsDesc p.2))) n =
      (lookupKey e n).map sortVersionsDesc := by
  induction e with
  | nil => rfl
  | cons p rest ih =>
    rcases p with ⟨k, vs⟩
    by_cases h : k = n
    · simp [lookupKey, h]
    · simp [lookupKey, h, ih]

/-- Counterexample to C2 as stated: in the catalog `c2ce` both versions
`1.0.0-1` and `1.0.0-01` are well-formed, yet after `SortEntries` the record
at index 0 compares strictly below the other well-formed record (the
numerically-equal prerelease identifiers `1` and `01` make each version
`LessThan` the other), so index 0 is not the highest well-formed version. -/
theorem sortEntries_leading_zero_counterexample :
    lookupKey (c2ce.sortEntries).entries "x" = some [rDash1, rDash01] ∧
    (semverParse rDash1.version).isSome = true ∧
    (semverParse rDash01.version).isSome = true ∧
    versionLess rDash1.version rDash01.version = true := by
  decide

/-- C2 amended: for every catalog and name, provided the comparator is
transitive on the name's version list (which holds for any mix of
well-formed and malformed versions except when two prerelease identifiers
are numerically equal but textually distinct, such as `1` versus `01`),
after `SortEntries` the name's list is a permutation of the original in
which every record after a malformed-version record is also malformed (so
the malformed versions sit after all well-formed ones), and — when at least
one well-formed version is present — the record at index 0 is well-formed
and not `LessThan` any well-formed version of the list. -/
theorem sortEntries_head_max_amended (i : IndexFile) (name : String)
    (vs : List ChartVersion) (hvs : lookupKey i.entries name = some vs)
    (ht : vlTrans vs) :
    ∃ vs', lookupKey (i.sortEntries).entries name = some vs' ∧
      vs'.Perm vs ∧
      vs'.Pairwise (fun a b => semverParse a.version = none → semverParse b.version = none) ∧
      ((∃ r ∈ vs, (semverParse r.version).isSome = true) →
        ∃ h t, vs' = h :: t ∧ (semverParse h.version).isSome = true ∧
          ∀ y ∈ vs, (semverParse y.version).isSome = true →
            versionLess h.version y.version = false) := by
  refine ⟨sortVersionsDesc vs, ?_, sortVersionsDesc_perm vs, ?_, ?_⟩
  · unfold IndexFile.sortEntries
    rw [lookupKey_map_sort, hvs]
    rfl
  · exact (sortVersionsDesc_pairwise vs ht).imp (fun hab => hab.1)
  · rintro ⟨r, hr, hrs⟩
    have hperm := sortVersionsDesc_perm vs
    have hr' : r ∈ sortVersionsDesc vs := hperm.mem_iff.mpr hr
    rcases hs : sortVersionsDesc vs with _ | ⟨h, t⟩
    · rw [hs] at hr'
      cases hr'
    · have hpw := sortVersionsDesc_pairwise vs ht
      rw [hs] at hpw
      have hcons := List.pairwise_cons.mp hpw
      rw [hs] at hr'
      have hwf : ∃ vh, semverParse h.version = some vh := by
        rcases hph : semverParse h.version with _ | vh
        · exfalso
          rcases List.mem_cons.mp hr' with rfl | hrt
          · rw [hph] at hrs
            cases hrs
          · have := (hcons.1 r hrt).1 hph
            rw [this] at hrs
            cases hrs
        · exact ⟨vh, rfl⟩
      rcases hwf with ⟨vh, hph⟩
      refine ⟨h, t, rfl, by rw [hph]; rfl, ?_⟩
      intro y hy hys
      have hy' : y ∈ h :: t := by
        rw [← hs]
        exact hperm.mem_iff.mpr hy
      rcases List.mem_cons.mp hy' with rfl | hyt
      · exact versionLess_self_wf y.version vh hph
      · exact (hcons.1 y hyt).2 (fun hh => by rw [hph] at hh; cases hh)

/-- Witness for C2 amended: the catalog `c2w` lists a malformed version
before `1.0.0`; the comparator is transitive on that list, and the theorem
yields the sorted shape with the well-formed maximum at index 0. -/
theorem sortEntries_head_max_amended_witness :
    vlTrans [rBogus, rW1] ∧
    (∃ vs', lookupKey (c2w.sortEntries).entries "x" = some vs' ∧
      vs'.Perm [rBogus, rW1] ∧
      vs'.Pairwise (fun a b => semverParse a.version = none → semverParse b.version = none) ∧
      ((∃ r ∈ [rBogus, rW1], (semverParse r.version).isSome = true) →
        ∃ h t, vs' = h :: t ∧ (semverParse h.version).isSome = true ∧
          ∀ y ∈ [rBogus, rW1], (semverParse y.version).isSome = true →
            versionLess h.version y.version = false)) :=
  ⟨by decide, sortEntries_head_max_amended c2w "x" [rBogus, rW1] (by decide) (by decide)⟩
